import Mathlib

/-!
# Verification of the collection-index generation pipeline

A shallow embedding of `mitreattack/navlayers/collections/col_to_index.py`
(`CollectionToIndex.generate_index` and `CollectionToIndex.extract_collection`),
together with theorems settling the specification's claims about it.

Modelling conventions:

* Timestamps. In the source, `created`/`modified` are ISO-8601 strings that are
  always compared, sorted and aggregated through `dateutil.parser.isoparse`,
  which is an order embedding from valid ISO strings into instants. Since every
  claim is about the induced order, timestamps are embedded as integers
  (`Time := Int`), standing for the parsed instant.
* Nondeterminism. `uuid.uuid4()` is modelled as an explicit input `uuid` of the
  run; two runs of the source differ exactly in this input.
* The filesystem. `os.listdir` and `json.load(open(path))` are modelled as
  explicit oracle inputs `listdir : String → List String` and
  `fs : String → Bundle` (each path parses to its bundle); the claims under
  study do not concern unreadable or unparsable files.
* Python exceptions. The pipeline returns `Except PyError _`; `PyError`
  records the exact runtime error the interpreter would raise
  (`AttributeError`, `IndexError`).
* `print` diagnostics are collected in a list of warning strings.
-/

/-- Timestamps, abstracting ISO-8601 strings through the order embedding
`isoparse` (see module docstring). -/
abbrev Time := Int

/-- An `x-mitre-collection` STIX object: the fields of the JSON dict that
`extract_collection` reads. -/
structure CollectionObj where
  id : String
  created : Time
  modified : Time
  x_mitre_version : String
  name : String
  description : String
deriving Repr, DecidableEq

/-- An object of a STIX bundle. The code only ever reads `x["type"]` of a
non-collection object, so such objects are represented by their type string
alone; `other t` stands for an object whose `"type"` differs from
`"x-mitre-collection"`. -/
inductive StixObj where
  | collection (c : CollectionObj)
  | other (t : String)
deriving Repr, DecidableEq

/-- `x["type"] == "x-mitre-collection"`. -/
def StixObj.isCollection : StixObj → Bool
  | .collection _ => true
  | .other _ => false

/-- A STIX bundle as the code consumes it: a JSON dict with an `"id"` key and
an `"objects"` key (the shape `json.load` produces for collection files, and
the input shape for the `bundles` argument). -/
structure Bundle where
  id : String
  objects : List StixObj
deriving Repr, DecidableEq

/-- One entry of a record's `"versions"` list, as built by
`extract_collection`; `name`/`description` are transient (deleted during
assembly). -/
structure Version where
  version : String
  url : String
  modified : Time
  name : String
  description : String
deriving Repr, DecidableEq

/-- One entry of the `collections` table (before assembly). -/
structure CollectionRecord where
  id : String
  created : Time
  versions : List Version
deriving Repr, DecidableEq

/-- A version as it appears in the output index, after
`del version["name"]` / `del version["description"]`. -/
structure OutVersion where
  version : String
  url : String
  modified : Time
deriving Repr, DecidableEq

/-- A finalized collection record as it appears in the output index. -/
structure OutCollection where
  id : String
  created : Time
  name : String
  description : String
  versions : List OutVersion
deriving Repr, DecidableEq

/-- The output index document. -/
structure Index where
  id : String
  name : String
  description : String
  created : Time
  modified : Time
  collections : List OutCollection
deriving Repr, DecidableEq

/-- The Python runtime errors the pipeline can raise:
`attributeError ty attr` is `AttributeError: '<ty>' object has no attribute
'<attr>'`; `indexError` is `IndexError` from `versions[-1]` on an empty
list. -/
inductive PyError where
  | attributeError (tyName attr : String)
  | indexError
deriving Repr, DecidableEq

/-- The `collections` table: a Python dict (insertion-ordered) from STIX ID to
record, embedded as an association list. -/
abbrev Table := List (String × CollectionRecord)

/-- Dict lookup `collections[k]` / `k in collections`. -/
def tableGet (t : Table) (k : String) : Option CollectionRecord :=
  (t.find? (fun p => p.1 == k)).map (fun p => p.2)

/-- Dict update `collections[k] = r`: replaces in place if the key is present
(keeping its position), otherwise appends, as Python dicts do. -/
def tableSet : Table → String → CollectionRecord → Table
  | [], k, r => [(k, r)]
  | p :: rest, k, r => if p.1 == k then (k, r) :: rest else p :: tableSet rest k r

/-- One step of the stable descending sort: place `v` into the
already-processed accumulator, after every element whose `modified` is at
least `v.modified` (so a tie keeps the earlier-inserted element first). -/
def insertTie (v : Version) : List Version → List Version
  | [] => [v]
  | w :: ws => if v.modified ≤ w.modified then w :: insertTie v ws else v :: w :: ws

/-- `versions.sort(key=lambda version: isoparse(version["modified"]),
reverse=True)`: Python's sort is stable, and `reverse=True` keeps equal-key
elements in their original order; a stable descending sort is extensionally
unique, embedded here as a left-to-right insertion sort. -/
def pySortDescByModified (l : List Version) : List Version :=
  l.foldl (fun acc v => insertTie v acc) []

/-- The list is sorted descending by `modified`. -/
def sortedDescByModified (l : List Version) : Prop :=
  l.Pairwise (fun a b => b.modified ≤ a.modified)

/-- The version dict appended for one collection object seen at `url`. -/
def mkVersion (cv : CollectionObj) (url : String) : Version :=
  { version := cv.x_mitre_version
    url := url
    modified := cv.modified
    name := cv.name
    description := cv.description }

/-- The body of `extract_collection`'s loop for one collection object:
create the record on first sight of the identity (fixing `created`), append
the new version, and re-sort the version list. -/
def insertVersion (tbl : Table) (cv : CollectionObj) (url : String) : Table :=
  let base : CollectionRecord :=
    match tableGet tbl cv.id with
    | some r => r
    | none => { id := cv.id, created := cv.created, versions := [] }
  tableSet tbl cv.id
    { base with versions := pySortDescByModified (base.versions ++ [mkVersion cv url]) }

/-- The collection-typed objects of a bundle, in order
(`filter(lambda x: x["type"] == "x-mitre-collection", bundle["objects"])`). -/
def collObjs (b : Bundle) : List CollectionObj :=
  b.objects.filterMap fun o =>
    match o with
    | .collection c => some c
    | .other _ => none

/-- `CollectionToIndex.extract_collection(bundle, collections, url)`. -/
def extract_collection (bundle : Bundle) (tbl : Table) (url : String) : Table :=
  (collObjs bundle).foldl (fun t cv => insertVersion t cv url) tbl

/-- Fold a sequence of single-object insertions into a table. -/
def insertAll (tbl : Table) (l : List (CollectionObj × String)) : Table :=
  l.foldl (fun t p => insertVersion t p.1 p.2) tbl

/-- The table produced by a sequence of `extract_collection` calls, one per
`(bundle, url)` source, starting from the empty dict. -/
def runExtracts (sources : List (Bundle × String)) : Table :=
  sources.foldl (fun t s => extract_collection s.1 t s.2) []

/-- The flat sequence of collection-object insertions performed by a sequence
of `extract_collection` calls. -/
def flattenSources (sources : List (Bundle × String)) : List (CollectionObj × String) :=
  sources.flatMap fun s => (collObjs s.1).map (fun cv => (cv, s.2))

/-- The versions inserted for identity `k` by an insertion sequence, in
insertion order. -/
def insertedFor (k : String) (l : List (CollectionObj × String)) : List Version :=
  l.filterMap fun p => if p.1.id == k then some (mkVersion p.1 p.2) else none

/-! ## A small regular-expression engine

`folders` mode filters directory entries with
`re.compile("(\w+-)+(\d\.?)+.json").match(fname)`. Regular expressions are
embedded with Brzozowski derivatives; for patterns without backreferences,
Python's backtracking `match` succeeds iff some prefix of the string is in
the language of the pattern, which is what `matchAtStart` decides. -/

/-- Regular expressions over characters. -/
inductive Regex where
  | fail : Regex
  | eps : Regex
  | pred : (Char → Bool) → Regex
  | cat : Regex → Regex → Regex
  | alt : Regex → Regex → Regex
  | star : Regex → Regex

/-- Does the regex accept the empty string? -/
def Regex.nullable : Regex → Bool
  | .fail => false
  | .eps => true
  | .pred _ => false
  | .cat r s => r.nullable && s.nullable
  | .alt r s => r.nullable || s.nullable
  | .star _ => true

/-- Brzozowski derivative with respect to one character. -/
def Regex.deriv : Regex → Char → Regex
  | .fail, _ => .fail
  | .eps, _ => .fail
  | .pred p, c => if p c then .eps else .fail
  | .cat r s, c =>
      if r.nullable then .alt (.cat (r.deriv c) s) (s.deriv c) else .cat (r.deriv c) s
  | .alt r s, c => .alt (r.deriv c) (s.deriv c)
  | .star r, c => .cat (r.deriv c) (.star r)

/-- `re.match` semantics: the regex matches some prefix of the string,
anchored at position 0. -/
def Regex.matchAtStart (r : Regex) : List Char → Bool
  | [] => r.nullable
  | c :: cs => r.nullable || (r.deriv c).matchAtStart cs

/-- `re.fullmatch` semantics: the regex matches the whole string. -/
def Regex.matchExact (r : Regex) : List Char → Bool
  | [] => r.nullable
  | c :: cs => (r.deriv c).matchExact cs

/-- `r+`. -/
def Regex.rplus (r : Regex) : Regex := .cat r (.star r)

/-- `r?`. -/
def Regex.ropt (r : Regex) : Regex := .alt r .eps

/-- A literal character. -/
def Regex.rchar (c : Char) : Regex := .pred (fun d => d == c)

/-- A literal string. -/
def Regex.rstr (s : String) : Regex :=
  s.data.foldr (fun c acc => .cat (.rchar c) acc) .eps

/-- Python `\w` (restricted to the ASCII inputs under study): a letter, a
digit, or an underscore. -/
def isWordChar (c : Char) : Bool := c.isAlphanum || c == '_'

/-- The compiled pattern `(\w+-)+(\d\.?)+.json` exactly as written in the
source: note the final `.` is an unescaped wildcard and there is no `$`
anchor. -/
def versionFilenameRegex : Regex :=
  .cat (.rplus (.cat (.rplus (.pred isWordChar)) (.rchar '-')))
    (.cat (.rplus (.cat (.pred Char.isDigit) (.ropt (.rchar '.'))))
      (.cat (.pred (fun _ => true)) (.rstr "json")))

/-- `version_regex.match(fname)` used as the directory filter: keep `fname`
iff the pattern matches at position 0. -/
def keepFilename (fname : String) : Bool :=
  versionFilenameRegex.matchAtStart fname.data

/-- Modelled from the spec's words (for the refinement comparison in C7, not
from the source): "one or more (word-characters followed by a hyphen)
segments, then a dotted numeric version, ending in `.json`" — a full match
whose final characters are the literal five-character suffix `.json`. -/
def specKeepFilename (fname : String) : Bool :=
  (Regex.cat (.rplus (.cat (.rplus (.pred isWordChar)) (.rchar '-')))
    (.cat (.rplus (.cat (.pred Char.isDigit) (.ropt (.rchar '.'))))
      (.rstr ".json"))).matchExact fname.data

/-! ## The pipeline -/

/-- Python truthiness of an optional-list argument defaulting to `None`:
truthy iff present and non-empty. -/
def pyTruthy (l : Option (List α)) : Bool :=
  match l with
  | none => false
  | some xs => !xs.isEmpty

/-- The warning printed when both `files` and `folders` are supplied. -/
def conflictWarning : String :=
  "cannot use both files and folder at the same time, please use only one argument at a time"

/-- `s.startswith(t)`, computed on the character lists. -/
def pyStartsWith (s t : String) : Bool := t.data.isPrefixOf s.data

/-- `s.endswith(t)`, computed on the character lists. -/
def pyEndsWith (s t : String) : Bool := t.data.isSuffixOf s.data

/-- `os.path.join(folder, fname)` under POSIX rules. -/
def osPathJoin (a b : String) : String :=
  if pyStartsWith b "/" then b
  else if a = "" || pyEndsWith a "/" then a ++ b
  else a ++ "/" ++ b

/-- The collection URL for a file:
`root_url + f if root_url.endswith("/") else root_url + "/" + f`. -/
def mkUrl (root_url f : String) : String :=
  if pyEndsWith root_url "/" then root_url ++ f else root_url ++ "/" ++ f

/-- The `if folders:` block: when `folders` is truthy the file list is rebuilt
(discarding the `files` argument) from each folder's entries that pass the
version-filename filter, joined to the folder; otherwise `files` is left
as supplied. -/
def resolveFiles (listdir : String → List String)
    (files folders : Option (List String)) : Option (List String) :=
  if pyTruthy folders then
    some ((folders.getD []).flatMap fun d =>
      ((listdir d).filter keepFilename).map (osPathJoin d))
  else files

/-- The bundle-cleaning loop. A bundle containing a collection-typed object is
kept with its object list narrowed to the collection objects. Otherwise the
code evaluates `potentially_valid_bundle.id` to format its diagnostic:
bundles are JSON dicts (the shape of §6, the shape the rest of the code reads
with `bundle["objects"]` / `x["type"]`, and the shape `json.load` produces),
and attribute access on a dict raises
`AttributeError: 'dict' object has no attribute 'id'`, aborting the run. -/
def cleanBundles : List Bundle → Except PyError (List Bundle)
  | [] => .ok []
  | b :: rest =>
    if b.objects.any StixObj.isCollection then
      match cleanBundles rest with
      | .ok l => .ok ({ b with objects := b.objects.filter StixObj.isCollection } :: l)
      | .error e => .error e
    else .error (.attributeError "dict" "id")

/-- The `if bundles:` guard around the cleaning loop. -/
def cleanStep (bundles : Option (List Bundle)) : Except PyError (List Bundle) :=
  if pyTruthy bundles then cleanBundles (bundles.getD []) else .ok []

/-- The two extraction loops: each resolved file's bundle is extracted with
its collection URL, then each cleaned input bundle with the sentinel URL
`"Imported"`. -/
def buildTable (fs : String → Bundle) (root_url : String)
    (files : Option (List String)) (cleaned : List Bundle) : Table :=
  let t0 : Table :=
    if pyTruthy files then
      (files.getD []).foldl (fun t f => extract_collection (fs f) t (mkUrl root_url f)) []
    else []
  cleaned.foldl (fun t b => extract_collection b t "Imported") t0

/-- One step of the running minimum over record `created` values:
`index_created if index_created and index_created < t else t`
(a datetime is always truthy). -/
def accMin (cur : Option Time) (t : Time) : Option Time :=
  match cur with
  | some c => if c < t then some c else some t
  | none => some t

/-- One step of the running maximum over version `modified` values:
`index_modified if index_modified and index_modified > t else t`. -/
def accMax (cur : Option Time) (t : Time) : Option Time :=
  match cur with
  | some c => if t < c then some c else some t
  | none => some t

/-- Finalize one record: `collection["name"] = collection["versions"][-1]["name"]`,
likewise for the description, and delete the transient fields from every
version. `[-1]` on an empty list raises `IndexError`. -/
def finalizeRecord (r : CollectionRecord) : Except PyError OutCollection :=
  match r.versions.getLast? with
  | none => .error .indexError
  | some last =>
    .ok { id := r.id
          created := r.created
          name := last.name
          description := last.description
          versions := r.versions.map fun v =>
            { version := v.version, url := v.url, modified := v.modified } }

/-- The successful result of `finalizeRecord` when the version list's last
element is `last`. -/
def finalizeOut (r : CollectionRecord) (last : Version) : OutCollection :=
  { id := r.id, created := r.created, name := last.name,
    description := last.description,
    versions := r.versions.map fun v =>
      { version := v.version, url := v.url, modified := v.modified } }

/-- The assembly loop over `collections.values()`: finalize each record while
accumulating the running minimum of record `created` values and the running
maximum of all versions' `modified` values. -/
def assembleLoop : List CollectionRecord → Option Time → Option Time →
    Except PyError (List OutCollection × Option Time × Option Time)
  | [], c, m => .ok ([], c, m)
  | r :: rest, c, m =>
    match finalizeRecord r with
    | .error e => .error e
    | .ok oc =>
      let c := accMin c r.created
      let m := r.versions.foldl (fun acc v => accMax acc v.modified) m
      match assembleLoop rest c m with
      | .error e => .error e
      | .ok (ocs, c, m) => .ok (oc :: ocs, c, m)

/-- Build the returned index dict. When the table was empty the accumulators
are still `None` and `index_created.isoformat()` (or
`index_modified.isoformat()`) raises
`AttributeError: 'NoneType' object has no attribute 'isoformat'`. -/
def assembleIndex (uuid name description : String) (tbl : Table) :
    Except PyError Index :=
  match assembleLoop (tbl.map (fun p => p.2)) none none with
  | .error e => .error e
  | .ok (cols, some c, some m) =>
    .ok { id := uuid, name := name, description := description,
          created := c, modified := m, collections := cols }
  | .ok (_, _, _) => .error (.attributeError "NoneType" "isoformat")

/-- `CollectionToIndex.generate_index(name, description, root_url, files,
folders, bundles)`, with `uuid`, `listdir` and `fs` the oracles described in
the module docstring. Returns the printed warnings and either the index or
the Python error raised. -/
def generate_index (uuid : String) (listdir : String → List String)
    (fs : String → Bundle) (name description root_url : String)
    (files folders : Option (List String)) (bundles : Option (List Bundle)) :
    List String × Except PyError Index :=
  let warnings := if pyTruthy files && pyTruthy folders then [conflictWarning] else []
  let files' := resolveFiles listdir files folders
  match cleanStep bundles with
  | .error e => (warnings, .error e)
  | .ok cleaned =>
    (warnings, assembleIndex uuid name description (buildTable fs root_url files' cleaned))

/-- The keys of the table are pairwise distinct. -/
def keysNodup (t : Table) : Prop :=
  t.Pairwise (fun a b => a.1 ≠ b.1)

/-! ## Concrete example inputs used by witnesses and counterexamples -/

/-- A collection object with identity `X`, earliest revision. -/
def exCollA : CollectionObj :=
  { id := "X", created := 10, modified := 20, x_mitre_version := "1.0",
    name := "Alpha", description := "descA" }

/-- A later revision of the same collection `X`. -/
def exCollB : CollectionObj :=
  { id := "X", created := 15, modified := 30, x_mitre_version := "2.0",
    name := "Beta", description := "descB" }

/-- A bundle holding only revision `A` of collection `X`. -/
def exBundleA : Bundle := { id := "bundle--a", objects := [.collection exCollA] }

/-- A bundle holding both revisions of `X` plus an unrelated object. -/
def exBundleAB : Bundle :=
  { id := "bundle--ab",
    objects := [.collection exCollA, .other "malware", .collection exCollB] }

/-- A bundle with no collection-typed object. -/
def exBadBundle : Bundle := { id := "bundle--42", objects := [.other "malware"] }

/-- A bundle with no objects at all. -/
def exEmptyBundle : Bundle := { id := "bundle--0", objects := [] }

/-- A concrete two-record table (as built by extraction) for witnesses. -/
def exTable6 : Table :=
  [("X", { id := "X", created := 10,
           versions := [{ version := "2.0", url := "u2", modified := 30,
                          name := "B", description := "dB" },
                        { version := "1.0", url := "u1", modified := 20,
                          name := "A", description := "dA" }] }),
   ("Y", { id := "Y", created := 5,
           versions := [{ version := "1.0", url := "u3", modified := 25,
                          name := "C", description := "dC" }] })]

/-- The index produced by the concrete C3 witness run. -/
def exIndex3 : Index :=
  { id := "u3", name := "N3", description := "D3", created := 10, modified := 30,
    collections :=
      [{ id := "X", created := 10, name := "Alpha", description := "descA",
         versions := [{ version := "2.0", url := "http://r/a.json", modified := 30 },
                      { version := "1.0", url := "http://r/a.json", modified := 20 }] }] }

/-- The index produced by the concrete C9 witness runs, up to the uuid. -/
def exIndex9 (u : String) : Index :=
  { id := u, name := "N9", description := "D9", created := 10, modified := 30,
    collections :=
      [{ id := "X", created := 10, name := "Alpha", description := "descA",
         versions := [{ version := "2.0", url := "http://r/b.json", modified := 30 },
                      { version := "1.0", url := "http://r/b.json", modified := 20 }] }] }

/-! ## Properties of the stable descending sort -/

theorem length_insertTie (v : Version) (l : List Version) :
    (insertTie v l).length = l.length + 1 := by
  induction l with
  | nil => rfl
  | cons w ws ih =>
    by_cases h : v.modified ≤ w.modified <;>
      simp [insertTie, h, ih, Nat.add_comm, Nat.add_left_comm]

theorem length_pySort (l : List Version) :
    (pySortDescByModified l).length = l.length := by
  suffices h : ∀ (l : List Version) (acc : List Version),
      (l.foldl (fun acc v => insertTie v acc) acc).length = acc.length + l.length by
    simpa using h l []
  intro l
  induction l with
  | nil => simp
  | cons v vs ih =>
    intro acc
    simp [List.foldl_cons, ih, length_insertTie, Nat.add_comm, Nat.add_left_comm,
      Nat.add_assoc]

theorem mem_insertTie {v w : Version} {l : List Version} :
    w ∈ insertTie v l ↔ w = v ∨ w ∈ l := by
  induction l with
  | nil => simp [insertTie]
  | cons x xs ih =>
    by_cases h : v.modified ≤ x.modified
    · simp [insertTie, h, ih]
      tauto
    · simp [insertTie, h]

theorem sortedDesc_insertTie {v : Version} {l : List Version}
    (h : sortedDescByModified l) : sortedDescByModified (insertTie v l) := by
  induction l with
  | nil => simp [insertTie, sortedDescByModified]
  | cons w ws ih =>
    rw [sortedDescByModified, List.pairwise_cons] at h
    obtain ⟨hw, hws⟩ := h
    by_cases hv : v.modified ≤ w.modified
    · rw [sortedDescByModified]
      simp only [insertTie, hv, if_true]
      rw [List.pairwise_cons]
      refine ⟨?_, ih hws⟩
      intro b hb
      rcases mem_insertTie.mp hb with hb | hb
      · exact hb ▸ hv
      · exact hw b hb
    · rw [sortedDescByModified]
      simp only [insertTie, hv, if_false]
      rw [List.pairwise_cons]
      refine ⟨?_, ?_⟩
      · intro b hb
        rcases List.mem_cons.mp hb with hb | hb
        · exact hb ▸ le_of_lt (lt_of_not_le hv)
        · exact le_trans (hw b hb) (le_of_lt (lt_of_not_le hv))
      · exact List.pairwise_cons.mpr ⟨hw, hws⟩

theorem sortedDesc_pySort (l : List Version) :
    sortedDescByModified (pySortDescByModified l) := by
  suffices h : ∀ (l acc : List Version), sortedDescByModified acc →
      sortedDescByModified (l.foldl (fun acc v => insertTie v acc) acc) by
    exact h l [] (List.Pairwise.nil)
  intro l
  induction l with
  | nil => intro acc h; simpa using h
  | cons v vs ih =>
    intro acc h
    exact ih _ (sortedDesc_insertTie h)

theorem insertTie_of_le {v : Version} {l : List Version}
    (h : ∀ w ∈ l, v.modified ≤ w.modified) : insertTie v l = l ++ [v] := by
  induction l with
  | nil => rfl
  | cons w ws ih =>
    have hw : v.modified ≤ w.modified := h w (List.mem_cons_self w ws)
    simp only [insertTie, hw, if_true, List.cons_append, List.cons.injEq, true_and]
    exact ih fun u hu => h u (List.mem_cons_of_mem w hu)

theorem pySort_append (l : List Version) (v : Version) :
    pySortDescByModified (l ++ [v]) = insertTie v (pySortDescByModified l) := by
  simp [pySortDescByModified, List.foldl_append]

theorem pySort_of_sorted {l : List Version} (h : sortedDescByModified l) :
    pySortDescByModified l = l := by
  induction l using List.reverseRecOn with
  | nil => rfl
  | append_singleton l v ih =>
    rw [sortedDescByModified, List.pairwise_append] at h
    obtain ⟨hl, _, hrel⟩ := h
    rw [pySort_append, ih hl, insertTie_of_le]
    intro w hw
    exact hrel w hw v (List.mem_singleton_self v)

theorem pySort_idem (l : List Version) :
    pySortDescByModified (pySortDescByModified l) = pySortDescByModified l :=
  pySort_of_sorted (sortedDesc_pySort l)

theorem filter_insertTie {l : List Version} (v : Version) (t : Time)
    (h : sortedDescByModified l) :
    (insertTie v l).filter (fun w => w.modified == t)
      = l.filter (fun w => w.modified == t)
        ++ if v.modified == t then [v] else [] := by
  induction l with
  | nil => by_cases hv : v.modified == t <;> simp [insertTie, List.filter, hv]
  | cons w ws ih =>
    rw [sortedDescByModified, List.pairwise_cons] at h
    obtain ⟨hw, hws⟩ := h
    by_cases hle : v.modified ≤ w.modified
    · simp only [insertTie, hle, if_true]
      by_cases hwt : w.modified == t <;>
        simp [List.filter_cons, hwt, ih hws]
    · simp only [insertTie, hle, if_false]
      have hlt : w.modified < v.modified := lt_of_not_le hle
      by_cases hvt : v.modified == t
      · have ht : v.modified = t := eq_of_beq hvt
        have hnone : ∀ u ∈ w :: ws, ¬(u.modified == t) := by
          intro u hu
          have hum : u.modified ≤ w.modified := by
            rcases List.mem_cons.mp hu with hu | hu
            · exact hu ▸ le_refl _
            · exact hw u hu
          have : u.modified < t := ht ▸ lt_of_le_of_lt hum hlt
          simp [Int.ne_of_lt this]
        have hfe : (w :: ws).filter (fun u => u.modified == t) = [] :=
          List.filter_eq_nil_iff.mpr hnone
        simp [List.filter_cons, hvt, hfe]
      · simp [List.filter_cons, hvt]

theorem filter_pySort (l : List Version) (t : Time) :
    (pySortDescByModified l).filter (fun w => w.modified == t)
      = l.filter (fun w => w.modified == t) := by
  induction l using List.reverseRecOn with
  | nil => rfl
  | append_singleton l v ih =>
    rw [pySort_append, filter_insertTie v t (sortedDesc_pySort l), ih,
      List.filter_append]
    by_cases hv : v.modified == t <;> simp [List.filter, hv]

/-! ## Properties of the identity-keyed table -/

theorem tableGet_tableSet_self (t : Table) (k : String) (r : CollectionRecord) :
    tableGet (tableSet t k r) k = some r := by
  induction t with
  | nil => simp [tableGet, tableSet, List.find?]
  | cons p rest ih =>
    by_cases h : p.1 == k
    · simp [tableGet, tableSet, h, List.find?]
    · simp only [tableSet, h, if_false]
      simpa [tableGet, List.find?, h] using ih

theorem tableGet_tableSet_ne (t : Table) {k k' : String} (r : CollectionRecord)
    (h : k ≠ k') : tableGet (tableSet t k r) k' = tableGet t k' := by
  have hb : (k == k') = false := beq_eq_false_iff_ne.mpr h
  induction t with
  | nil => simp [tableGet, tableSet, List.find?, hb]
  | cons p rest ih =>
    by_cases hp : p.1 == k
    · have hpk : p.1 = k := eq_of_beq hp
      have hpk' : ¬(p.1 == k') := by simp [hpk, h]
      simp [tableGet, tableSet, hp, List.find?, h, hpk']
    · by_cases hp' : p.1 == k'
      · simp [tableGet, tableSet, hp, List.find?, hp']
      · simp only [tableSet, hp, if_false]
        simpa [tableGet, List.find?, hp'] using ih

theorem mem_tableSet {t : Table} {k : String} {r : CollectionRecord}
    {q : String × CollectionRecord} (h : q ∈ tableSet t k r) :
    q ∈ t ∨ q = (k, r) := by
  induction t with
  | nil => simpa [tableSet] using h
  | cons p rest ih =>
    by_cases hp : p.1 == k
    · simp only [tableSet, hp, if_true] at h
      rcases List.mem_cons.mp h with h | h
      · exact Or.inr h
      · exact Or.inl (List.mem_cons_of_mem p h)
    · simp only [tableSet, hp, if_false] at h
      rcases List.mem_cons.mp h with h | h
      · exact Or.inl (h ▸ List.mem_cons_self p rest)
      · rcases ih h with h | h
        · exact Or.inl (List.mem_cons_of_mem p h)
        · exact Or.inr h

theorem keysNodup_tableSet {t : Table} (k : String) (r : CollectionRecord)
    (h : keysNodup t) : keysNodup (tableSet t k r) := by
  induction t with
  | nil => simp [tableSet, keysNodup]
  | cons p rest ih =>
    rw [keysNodup, List.pairwise_cons] at h
    obtain ⟨hp, hrest⟩ := h
    by_cases hk : p.1 == k
    · have hpk : p.1 = k := eq_of_beq hk
      rw [keysNodup]
      simp only [tableSet, hk, if_true]
      rw [List.pairwise_cons]
      exact ⟨fun q hq => hpk ▸ hp q hq, hrest⟩
    · rw [keysNodup]
      simp only [tableSet]
      rw [if_neg hk, List.pairwise_cons]
      refine ⟨?_, ih hrest⟩
      intro q hq
      rcases mem_tableSet hq with hq | hq
      · exact hp q hq
      · rw [hq]
        simpa using hk

theorem tableGet_of_mem {t : Table} {k : String} {r : CollectionRecord}
    (hn : keysNodup t) (h : (k, r) ∈ t) : tableGet t k = some r := by
  induction t with
  | nil => simp at h
  | cons p rest ih =>
    rw [keysNodup, List.pairwise_cons] at hn
    obtain ⟨hp, hrest⟩ := hn
    rcases List.mem_cons.mp h with h | h
    · simp [tableGet, List.find?, ← h]
    · have hne : ¬(p.1 == k) := by
        have := hp (k, r) h
        simpa using this
      simpa [tableGet, List.find?, hne] using ih hrest h

theorem keysNodup_insertVersion {t : Table} (cv : CollectionObj) (u : String)
    (h : keysNodup t) : keysNodup (insertVersion t cv u) :=
  keysNodup_tableSet cv.id _ h

theorem keysNodup_insertAll (l : List (CollectionObj × String)) :
    keysNodup (insertAll [] l) := by
  suffices hgen : ∀ (l : List (CollectionObj × String)) (t : Table),
      keysNodup t → keysNodup (insertAll t l) by
    exact hgen l [] (List.Pairwise.nil)
  intro l
  induction l with
  | nil => intro t h; simpa [insertAll] using h
  | cons p rest ih =>
    intro t h
    exact ih _ (keysNodup_insertVersion p.1 p.2 h)

/-! ## Characterization of the table built by a sequence of insertions -/

theorem insertAll_append_singleton (t : Table) (l : List (CollectionObj × String))
    (p : CollectionObj × String) :
    insertAll t (l ++ [p]) = insertVersion (insertAll t l) p.1 p.2 := by
  simp [insertAll, List.foldl_append]

theorem insertedFor_append_singleton (k : String) (l : List (CollectionObj × String))
    (p : CollectionObj × String) :
    insertedFor k (l ++ [p])
      = insertedFor k l ++ (if p.1.id == k then [mkVersion p.1 p.2] else []) := by
  by_cases h : p.1.id == k
  · have h' : p.1.id = k := eq_of_beq h
    simp [insertedFor, List.filterMap_append, List.filterMap_cons, h, h']
  · have h' : ¬p.1.id = k := by simpa using h
    simp [insertedFor, List.filterMap_append, List.filterMap_cons, h, h']

theorem pySort_resort_append (x : List Version) (v : Version) :
    pySortDescByModified (pySortDescByModified x ++ [v])
      = pySortDescByModified (x ++ [v]) := by
  rw [pySort_append, pySort_append, pySort_idem]

/-- The record stored under key `k` after an insertion sequence `l`: present
iff some object with identity `k` was inserted, with `id`/`created` taken from
the first such object and the version list equal to the stable descending
sort of all versions inserted for `k`, in insertion order. -/
theorem tableGet_insertAll (l : List (CollectionObj × String)) (k : String) :
    tableGet (insertAll [] l) k
      = (l.find? (fun p => p.1.id == k)).map
          (fun p =>
            { id := p.1.id, created := p.1.created,
              versions := pySortDescByModified (insertedFor k l) }) := by
  induction l using List.reverseRecOn with
  | nil => simp [insertAll, tableGet, List.find?]
  | append_singleton l q ih =>
    rw [insertAll_append_singleton]
    by_cases hk : q.1.id == k
    · have hkk : q.1.id = k := eq_of_beq hk
      cases hT : tableGet (insertAll [] l) q.1.id with
      | none =>
        have hfind : l.find? (fun p => p.1.id == k) = none := by
          rw [hkk, ih] at hT
          exact Option.map_eq_none.mp hT
        have hins : insertedFor k l = [] := by
          rw [insertedFor, List.filterMap_eq_nil_iff]
          intro p hp
          have := List.find?_eq_none.mp hfind p hp
          simp [this]
        simp only [insertVersion, hT]
        rw [hkk, tableGet_tableSet_self, List.find?_append, hfind, Option.none_or,
          insertedFor_append_singleton, hins, hk]
        simp [List.find?, hk, hkk]
      | some r =>
        obtain ⟨p₀, hp₀, hr⟩ : ∃ p₀, l.find? (fun p => p.1.id == k) = some p₀ ∧
            r = { id := p₀.1.id, created := p₀.1.created,
                  versions := pySortDescByModified (insertedFor k l) } := by
          rw [hkk, ih] at hT
          cases hf : l.find? (fun p => p.1.id == k) with
          | none => rw [hf] at hT; simp at hT
          | some p₀ =>
            rw [hf] at hT
            exact ⟨p₀, rfl, (Option.some_inj.mp hT).symm⟩
        simp only [insertVersion, hT]
        rw [hkk, tableGet_tableSet_self, List.find?_append, hp₀,
          insertedFor_append_singleton, hk]
        simp only [Option.or, Option.map_some', if_true, hr]
        rw [pySort_resort_append]
    · have hne : q.1.id ≠ k := fun h => hk (beq_iff_eq.mpr h)
      have hLHS : tableGet (insertVersion (insertAll [] l) q.1 q.2) k
          = tableGet (insertAll [] l) k := by
        simp only [insertVersion]
        exact tableGet_tableSet_ne _ _ hne
      rw [hLHS, ih, List.find?_append, insertedFor_append_singleton]
      have hfq : List.find? (fun p => p.1.id == k) [q] = none := by
        simp [List.find?, hk]
      rw [hfq, Option.or_none]
      simp [hk]

theorem extract_collection_eq_insertAll (b : Bundle) (t : Table) (u : String) :
    extract_collection b t u = insertAll t ((collObjs b).map (fun cv => (cv, u))) := by
  simp [extract_collection, insertAll, List.foldl_map]

theorem foldl_extract_eq_insertAll (sources : List (Bundle × String)) :
    ∀ t : Table,
      sources.foldl (fun t s => extract_collection s.1 t s.2) t
        = insertAll t (flattenSources sources) := by
  induction sources with
  | nil => intro t; simp [flattenSources, insertAll]
  | cons s rest ih =>
    intro t
    rw [List.foldl_cons, ih, extract_collection_eq_insertAll]
    simp only [flattenSources, List.flatMap_cons]
    simp [insertAll, List.foldl_append]

theorem runExtracts_eq_insertAll (sources : List (Bundle × String)) :
    runExtracts sources = insertAll [] (flattenSources sources) :=
  foldl_extract_eq_insertAll sources []

theorem insertedFor_ne_nil_of_find? {l : List (CollectionObj × String)} {k : String}
    {p₀ : CollectionObj × String} (h : l.find? (fun p => p.1.id == k) = some p₀) :
    insertedFor k l ≠ [] := by
  intro hnil
  rw [insertedFor, List.filterMap_eq_nil_iff] at hnil
  have hmem := List.mem_of_find?_eq_some h
  have hq := List.find?_some h
  have := hnil p₀ hmem
  rw [if_pos hq] at this
  exact Option.some_ne_none _ this

/-- Every record present in a table reached by insertions has a non-empty
version list sorted descending by `modified`. -/
theorem record_invariant_of_tableGet {l : List (CollectionObj × String)}
    {k : String} {r : CollectionRecord}
    (h : tableGet (insertAll [] l) k = some r) :
    r.versions ≠ [] ∧ sortedDescByModified r.versions ∧
      r.versions = pySortDescByModified (insertedFor k l) := by
  rw [tableGet_insertAll] at h
  cases hf : l.find? (fun p => p.1.id == k) with
  | none => rw [hf] at h; simp at h
  | some p₀ =>
    rw [hf, Option.map_some'] at h
    have hr := (Option.some_inj.mp h).symm
    have hv : r.versions = pySortDescByModified (insertedFor k l) := by
      rw [hr]
    refine ⟨?_, hv ▸ sortedDesc_pySort _, hv⟩
    rw [hv]
    intro hnil
    have := length_pySort (insertedFor k l)
    rw [hnil] at this
    exact insertedFor_ne_nil_of_find? hf (List.length_eq_zero.mp this.symm)

/-- Membership version of the record invariant, via key uniqueness. -/
theorem record_invariant_of_mem {l : List (CollectionObj × String)}
    {p : String × CollectionRecord} (h : p ∈ insertAll [] l) :
    p.2.versions ≠ [] ∧ sortedDescByModified p.2.versions := by
  have hget : tableGet (insertAll [] l) p.1 = some p.2 :=
    tableGet_of_mem (keysNodup_insertAll l) (by simpa using h)
  obtain ⟨h1, h2, _⟩ := record_invariant_of_tableGet hget
  exact ⟨h1, h2⟩

/-! ## Properties of the assembly step -/

theorem mem_of_getLast? {l : List Version} {a : Version}
    (h : l.getLast? = some a) : a ∈ l := by
  induction l with
  | nil => simp at h
  | cons x xs ih =>
    cases xs with
    | nil =>
      simp [List.getLast?] at h
      simp [h]
    | cons y ys =>
      rw [List.getLast?_cons_cons] at h
      exact List.mem_cons_of_mem x (ih h)

/-- In a list sorted descending by `modified`, the last element has the
minimal `modified`. -/
theorem getLast?_min_of_sortedDesc {l : List Version} {last : Version}
    (hs : sortedDescByModified l) (h : l.getLast? = some last) :
    ∀ v ∈ l, last.modified ≤ v.modified := by
  induction l with
  | nil => simp at h
  | cons x xs ih =>
    rw [sortedDescByModified, List.pairwise_cons] at hs
    obtain ⟨hx, hxs⟩ := hs
    cases xs with
    | nil =>
      have hx2 : x = last := by simpa [List.getLast?] using h
      subst hx2
      intro v hv
      have hvx : v = x := by simpa using hv
      rw [hvx]
    | cons y ys =>
      rw [List.getLast?_cons_cons] at h
      have hrest := ih hxs h
      intro v hv
      rcases List.mem_cons.mp hv with hv | hv
      · have hlast : last ∈ y :: ys := mem_of_getLast? h
        exact hv ▸ hx last hlast
      · exact hrest v hv

theorem finalizeRecord_ok {r : CollectionRecord} {last : Version}
    (h : r.versions.getLast? = some last) :
    finalizeRecord r = .ok (finalizeOut r last) := by
  simp [finalizeRecord, finalizeOut, h]

theorem finalizeRecord_ok_of_ne_nil {r : CollectionRecord}
    (h : r.versions ≠ []) : ∃ last, r.versions.getLast? = some last ∧
      finalizeRecord r = .ok (finalizeOut r last) := by
  cases hl : r.versions.getLast? with
  | none => exact absurd (List.getLast?_eq_none_iff.mp hl) h
  | some last => exact ⟨last, rfl, finalizeRecord_ok hl⟩

/-- The successful assembly loop: the output records are the finalized
records in order and the accumulators fold `accMin` over all record
`created` values and `accMax` over all versions' `modified` values. -/
theorem assembleLoop_ok (rs : List CollectionRecord) :
    ∀ c0 m0 : Option Time, (∀ r ∈ rs, r.versions ≠ []) →
      ∃ cols, assembleLoop rs c0 m0
        = .ok (cols, (rs.map (fun r => r.created)).foldl accMin c0,
               (rs.flatMap (fun r => r.versions.map (fun v => v.modified))).foldl accMax m0) := by
  induction rs with
  | nil => intro c0 m0 _; exact ⟨[], rfl⟩
  | cons r rest ih =>
    intro c0 m0 h
    obtain ⟨last, hlast, hfin⟩ :=
      finalizeRecord_ok_of_ne_nil (h r (List.mem_cons_self r rest))
    obtain ⟨cols, hcols⟩ := ih (accMin c0 r.created)
      ((r.versions.map (fun v => v.modified)).foldl accMax m0)
      (fun q hq => h q (List.mem_cons_of_mem r hq))
    refine ⟨finalizeOut r last :: cols, ?_⟩
    rw [assembleLoop, hfin]
    simp only [List.foldl_map]
    simp only [List.foldl_map] at hcols
    rw [hcols]
    simp [List.flatMap_cons, List.foldl_append, List.foldl_map]

theorem assembleLoop_forall₂ (rs : List CollectionRecord) :
    ∀ (c0 m0 : Option Time) (cols : List OutCollection) (c m : Option Time),
      assembleLoop rs c0 m0 = .ok (cols, c, m) →
      List.Forall₂ (fun r oc => finalizeRecord r = .ok oc) rs cols := by
  induction rs with
  | nil =>
    intro c0 m0 cols c m h
    simp only [assembleLoop, Except.ok.injEq] at h
    have h1 : ([] : List OutCollection) = cols := congrArg Prod.fst h
    rw [← h1]
    exact List.Forall₂.nil
  | cons r rest ih =>
    intro c0 m0 cols c m h
    rw [assembleLoop] at h
    cases hfin : finalizeRecord r with
    | error e => rw [hfin] at h; simp at h
    | ok oc =>
      rw [hfin] at h
      simp only at h
      cases hrec : assembleLoop rest (accMin c0 r.created)
          (r.versions.foldl (fun acc v => accMax acc v.modified) m0) with
      | error e => rw [hrec] at h; simp at h
      | ok trip =>
        obtain ⟨ocs, c', m'⟩ := trip
        rw [hrec] at h
        simp only [Except.ok.injEq] at h
        have hcols : oc :: ocs = cols := congrArg Prod.fst h
        rw [← hcols]
        exact List.Forall₂.cons hfin (ih _ _ _ _ _ hrec)

theorem foldl_accMin_some (ts : List Time) :
    ∀ c : Time, ∃ t, ts.foldl accMin (some c) = some t ∧
      (t = c ∨ t ∈ ts) ∧ t ≤ c ∧ ∀ s ∈ ts, t ≤ s := by
  induction ts with
  | nil => intro c; exact ⟨c, rfl, Or.inl rfl, le_refl c, by simp⟩
  | cons x xs ih =>
    intro c
    by_cases h : c < x
    · have hstep : accMin (some c) x = some c := by simp [accMin, h]
      obtain ⟨t, h1, h2, h3, h4⟩ := ih c
      refine ⟨t, by simpa [hstep] using h1, ?_, h3, ?_⟩
      · rcases h2 with h2 | h2
        · exact Or.inl h2
        · exact Or.inr (List.mem_cons_of_mem x h2)
      · intro s hs
        rcases List.mem_cons.mp hs with hs | hs
        · exact hs ▸ le_trans h3 (le_of_lt h)
        · exact h4 s hs
    · have hstep : accMin (some c) x = some x := by simp [accMin, h]
      obtain ⟨t, h1, h2, h3, h4⟩ := ih x
      refine ⟨t, by simpa [hstep] using h1, ?_, le_trans h3 (le_of_not_lt h), ?_⟩
      · rcases h2 with h2 | h2
        · exact Or.inr (h2 ▸ List.mem_cons_self x xs)
        · exact Or.inr (List.mem_cons_of_mem x h2)
      · intro s hs
        rcases List.mem_cons.mp hs with hs | hs
        · exact hs ▸ h3
        · exact h4 s hs

theorem foldl_accMin_none {ts : List Time} (h : ts ≠ []) :
    ∃ t, ts.foldl accMin none = some t ∧ t ∈ ts ∧ ∀ s ∈ ts, t ≤ s := by
  cases ts with
  | nil => exact absurd rfl h
  | cons x xs =>
    have hstep : accMin none x = some x := rfl
    obtain ⟨t, h1, h2, h3, h4⟩ := foldl_accMin_some xs x
    refine ⟨t, by simpa [hstep] using h1, ?_, ?_⟩
    · rcases h2 with h2 | h2
      · exact h2 ▸ List.mem_cons_self x xs
      · exact List.mem_cons_of_mem x h2
    · intro s hs
      rcases List.mem_cons.mp hs with hs | hs
      · exact hs ▸ h3
      · exact h4 s hs

theorem foldl_accMax_some (ts : List Time) :
    ∀ c : Time, ∃ t, ts.foldl accMax (some c) = some t ∧
      (t = c ∨ t ∈ ts) ∧ c ≤ t ∧ ∀ s ∈ ts, s ≤ t := by
  induction ts with
  | nil => intro c; exact ⟨c, rfl, Or.inl rfl, le_refl c, by simp⟩
  | cons x xs ih =>
    intro c
    by_cases h : x < c
    · have hstep : accMax (some c) x = some c := by simp [accMax, h]
      obtain ⟨t, h1, h2, h3, h4⟩ := ih c
      refine ⟨t, by simpa [hstep] using h1, ?_, h3, ?_⟩
      · rcases h2 with h2 | h2
        · exact Or.inl h2
        · exact Or.inr (List.mem_cons_of_mem x h2)
      · intro s hs
        rcases List.mem_cons.mp hs with hs | hs
        · exact hs ▸ le_trans (le_of_lt h) h3
        · exact h4 s hs
    · have hstep : accMax (some c) x = some x := by simp [accMax, h]
      obtain ⟨t, h1, h2, h3, h4⟩ := ih x
      refine ⟨t, by simpa [hstep] using h1, ?_, le_trans (le_of_not_lt h) h3, ?_⟩
      · rcases h2 with h2 | h2
        · exact Or.inr (h2 ▸ List.mem_cons_self x xs)
        · exact Or.inr (List.mem_cons_of_mem x h2)
      · intro s hs
        rcases List.mem_cons.mp hs with hs | hs
        · exact hs ▸ h3
        · exact h4 s hs

theorem foldl_accMax_none {ts : List Time} (h : ts ≠ []) :
    ∃ t, ts.foldl accMax none = some t ∧ t ∈ ts ∧ ∀ s ∈ ts, s ≤ t := by
  cases ts with
  | nil => exact absurd rfl h
  | cons x xs =>
    have hstep : accMax none x = some x := rfl
    obtain ⟨t, h1, h2, h3, h4⟩ := foldl_accMax_some xs x
    refine ⟨t, by simpa [hstep] using h1, ?_, ?_⟩
    · rcases h2 with h2 | h2
      · exact h2 ▸ List.mem_cons_self x xs
      · exact List.mem_cons_of_mem x h2
    · intro s hs
      rcases List.mem_cons.mp hs with hs | hs
      · exact hs ▸ h3
      · exact h4 s hs

/-! ## Plumbing the full pipeline -/

theorem buildTable_eq_runExtracts (fs : String → Bundle) (root_url : String)
    (files : Option (List String)) (cleaned : List Bundle) :
    buildTable fs root_url files cleaned
      = runExtracts ((if pyTruthy files then
            (files.getD []).map (fun f => (fs f, mkUrl root_url f)) else [])
          ++ cleaned.map (fun b => (b, "Imported"))) := by
  rw [runExtracts, List.foldl_append]
  by_cases h : pyTruthy files <;>
    simp [buildTable, h, List.foldl_map]

theorem generate_index_of_cleanStep {bundles : Option (List Bundle)}
    {cb : List Bundle} (uuid : String) (listdir : String → List String)
    (fs : String → Bundle) (name description root_url : String)
    (files folders : Option (List String))
    (hclean : cleanStep bundles = .ok cb) :
    generate_index uuid listdir fs name description root_url files folders bundles
      = ((if pyTruthy files && pyTruthy folders then [conflictWarning] else []),
         assembleIndex uuid name description
           (buildTable fs root_url (resolveFiles listdir files folders) cb)) := by
  simp [generate_index, hclean]

theorem assembleIndex_ok_inv {uuid name description : String} {tbl : Table}
    {idx : Index} (h : assembleIndex uuid name description tbl = .ok idx) :
    ∃ cols c m, assembleLoop (tbl.map (fun p => p.2)) none none = .ok (cols, some c, some m)
      ∧ idx = { id := uuid, name := name, description := description,
                created := c, modified := m, collections := cols } := by
  cases hloop : assembleLoop (tbl.map (fun p => p.2)) none none with
  | error e => rw [assembleIndex, hloop] at h; simp at h
  | ok trip =>
    obtain ⟨cols, copt, mopt⟩ := trip
    cases copt with
    | none => rw [assembleIndex, hloop] at h; simp at h
    | some c =>
      cases mopt with
      | none => rw [assembleIndex, hloop] at h; simp at h
      | some m =>
        rw [assembleIndex, hloop] at h
        simp only [Except.ok.injEq] at h
        exact ⟨cols, c, m, rfl, h.symm⟩

theorem forall₂_imp_of_mem {α β : Type} {R S : α → β → Prop} :
    ∀ {l1 : List α} {l2 : List β}, List.Forall₂ R l1 l2 →
      (∀ a ∈ l1, ∀ b, R a b → S a b) → List.Forall₂ S l1 l2 := by
  intro l1 l2 h
  induction h with
  | nil => intro _; exact List.Forall₂.nil
  | cons hab htail ih =>
    intro hmem
    exact List.Forall₂.cons (hmem _ (List.mem_cons_self _ _) _ hab)
      (ih fun a ha b hr => hmem a (List.mem_cons_of_mem _ ha) b hr)

/-! ## The claims -/

/-- C1 (counterexample to the claim as stated): with zero files, zero
directory entries and no bundles, `generate_index` does not fail with a
typed, catchable `NoCollectionsFound` error — it crashes while computing the
index created/modified timestamps, raising
`AttributeError: 'NoneType' object has no attribute 'isoformat'`. -/
theorem C1_counterexample_empty_input_crashes :
    (generate_index "u0" (fun _ => []) (fun _ => exEmptyBundle) "n0" "d0" "r0"
        (some []) (some []) none).2
      = .error (.attributeError "NoneType" "isoformat") := by
  rfl

/-- C1 (amended): for every run in which, after processing all sources, the
collections table is empty, `generate_index` crashes while computing the
index created/modified timestamps with
`AttributeError: 'NoneType' object has no attribute 'isoformat'` (the
accumulators are still `None`); no typed `NoCollectionsFound` error exists in
the code. -/
theorem C1_empty_table_crashes_on_isoformat
    (uuid : String) (listdir : String → List String) (fs : String → Bundle)
    (name description root_url : String)
    (files folders : Option (List String)) (bundles : Option (List Bundle))
    (cb : List Bundle)
    (hclean : cleanStep bundles = .ok cb)
    (htbl : buildTable fs root_url (resolveFiles listdir files folders) cb = []) :
    (generate_index uuid listdir fs name description root_url files folders bundles).2
      = .error (.attributeError "NoneType" "isoformat") := by
  rw [generate_index_of_cleanStep uuid listdir fs name description root_url files folders hclean,
    htbl]
  rfl

/-- Witness for C1's amended theorem at a concrete empty input. -/
theorem C1_empty_table_crashes_on_isoformat_witness :
    (generate_index "u1" (fun _ => []) (fun _ => exEmptyBundle) "n1" "d1" "r1"
        none none none).2
      = .error (.attributeError "NoneType" "isoformat") :=
  C1_empty_table_crashes_on_isoformat "u1" (fun _ => []) (fun _ => exEmptyBundle)
    "n1" "d1" "r1" none none none [] rfl rfl

/-- C2 (counterexample to the claim as stated): a call supplying both a
non-empty `files` list and a non-empty `folders` list is not rejected as a
fatal `UsageConflict` before any I/O — it prints a warning and proceeds,
returning a complete index (built from the folders). -/
theorem C2_counterexample_conflict_proceeds :
    generate_index "u2" (fun _ => ["foo-1.0.json"]) (fun _ => exBundleA) "N" "D" "http://r/"
        (some ["ignored.json"]) (some ["dir"]) none
      = ([conflictWarning],
         .ok { id := "u2", name := "N", description := "D", created := 10, modified := 20,
               collections := [{ id := "X", created := 10, name := "Alpha",
                                 description := "descA",
                                 versions := [{ version := "1.0",
                                                url := "http://r/dir/foo-1.0.json",
                                                modified := 20 }] }] }) := by
  rfl

/-- C2 (amended): when both `files` and `folders` are truthy,
`generate_index` prints the usage-conflict warning and continues: the
returned result equals that of the same call with the `files` argument
dropped (processing proceeds on the folders). -/
theorem C2_conflict_warns_and_continues
    (uuid : String) (listdir : String → List String) (fs : String → Bundle)
    (name description root_url : String)
    (files folders : Option (List String)) (bundles : Option (List Bundle))
    (hf : pyTruthy files = true) (hd : pyTruthy folders = true) :
    (generate_index uuid listdir fs name description root_url files folders bundles).1
        = [conflictWarning]
    ∧ (generate_index uuid listdir fs name description root_url files folders bundles).2
        = (generate_index uuid listdir fs name description root_url none folders bundles).2 := by
  have hres : resolveFiles listdir files folders = resolveFiles listdir none folders := by
    simp [resolveFiles, hd]
  constructor
  · cases h : cleanStep bundles <;> simp [generate_index, hf, hd, h]
  · cases h : cleanStep bundles <;> simp [generate_index, hf, hd, h, hres]

/-- Witness for C2's amended theorem at a concrete conflicting call. -/
theorem C2_conflict_warns_and_continues_witness :
    (generate_index "u2b" (fun _ => ["bar-2.0.json"]) (fun _ => exBundleA) "N2" "D2" "r2"
        (some ["a.json"]) (some ["dir2"]) none).1 = [conflictWarning]
    ∧ (generate_index "u2b" (fun _ => ["bar-2.0.json"]) (fun _ => exBundleA) "N2" "D2" "r2"
        (some ["a.json"]) (some ["dir2"]) none).2
      = (generate_index "u2b" (fun _ => ["bar-2.0.json"]) (fun _ => exBundleA) "N2" "D2" "r2"
          none (some ["dir2"]) none).2 :=
  C2_conflict_warns_and_continues "u2b" (fun _ => ["bar-2.0.json"]) (fun _ => exBundleA)
    "N2" "D2" "r2" (some ["a.json"]) (some ["dir2"]) none rfl rfl

/-- C7 (counterexample to the claim as stated): the directory filter does not
keep exactly the filenames matching "(word-characters plus hyphen) segments,
dotted numeric version, ending in `.json`": `"foo-1.json.bak"` does not end
in `.json` (the spec-pattern full match fails) yet the code keeps it, because
`re.match` only anchors at the start and the `.` before `json` is an
unescaped wildcard. -/
theorem C7_counterexample_bak_file_kept :
    keepFilename "foo-1.json.bak" = true
    ∧ specKeepFilename "foo-1.json.bak" = false := by
  exact ⟨rfl, rfl⟩

/-- C7 (amended): in directory mode exactly those entry filenames are kept of
which some prefix matches `(\w+-)+(\d\.?)+.json` (unescaped `.`, no end
anchor), each joined to its directory: scanning a directory listing
`foo-1.0.json`, `foo-1.1.json`, `readme.md` yields exactly the two version
files as candidates, while names such as `foo-1xjson` are also kept by the
wildcard dot. -/
theorem C7_directory_filter_behavior :
    resolveFiles (fun _ => ["foo-1.0.json", "foo-1.1.json", "readme.md"]) none
        (some ["collections"])
      = some ["collections/foo-1.0.json", "collections/foo-1.1.json"]
    ∧ keepFilename "foo-1.0.json" = true
    ∧ keepFilename "foo-1.1.json" = true
    ∧ keepFilename "readme.md" = false
    ∧ keepFilename "foo-1xjson" = true := by
  exact ⟨rfl, rfl, rfl, rfl, rfl⟩

/-- C8: the claim is what the code plainly intends (skip the bundle, print a
diagnostic naming it, continue), but the code is wrong: formatting the
diagnostic evaluates `potentially_valid_bundle.id`, attribute access on a
JSON dict, so a pre-parsed bundle with no collection-typed object aborts the
whole run with `AttributeError: 'dict' object has no attribute 'id'` instead
of being skipped non-fatally. -/
theorem C8_invalid_bundle_diagnostic_crashes :
    (generate_index "u8" (fun _ => []) (fun _ => exEmptyBundle) "n8" "d8" "r8"
        none none (some [exBadBundle])).2
      = .error (.attributeError "dict" "id") := by
  rfl

/-- C10: when both a non-empty `files` list and a non-empty `folders` list
are supplied, execution continues past the printed warning and the `files`
argument is discarded — the file list is rebuilt from the folders alone, so
the returned index equals the one produced by supplying only the folders
(same `uuid` draw and oracles). -/
theorem C10_files_discarded_when_folders_given
    (uuid : String) (listdir : String → List String) (fs : String → Bundle)
    (name description root_url : String)
    (files folders : Option (List String)) (bundles : Option (List Bundle))
    (hf : pyTruthy files = true) (hd : pyTruthy folders = true) :
    (generate_index uuid listdir fs name description root_url files folders bundles).2
      = (generate_index uuid listdir fs name description root_url none folders bundles).2 := by
  have hres : resolveFiles listdir files folders = resolveFiles listdir none folders := by
    simp [resolveFiles, hd]
  cases h : cleanStep bundles <;> simp [generate_index, hf, hd, h, hres]

/-- Witness for C10 at a concrete call with both arguments supplied. -/
theorem C10_files_discarded_when_folders_given_witness :
    (generate_index "u10" (fun _ => ["baz-3.1.json"]) (fun _ => exBundleAB) "N10" "D10" "r10"
        (some ["x.json", "y.json"]) (some ["dirA", "dirB"]) none).2
      = (generate_index "u10" (fun _ => ["baz-3.1.json"]) (fun _ => exBundleAB) "N10" "D10" "r10"
          none (some ["dirA", "dirB"]) none).2 :=
  C10_files_discarded_when_folders_given "u10" (fun _ => ["baz-3.1.json"])
    (fun _ => exBundleAB) "N10" "D10" "r10" (some ["x.json", "y.json"])
    (some ["dirA", "dirB"]) none rfl rfl

/-- C4: after every sequence of insertions (hence after every
`extract_collection` call and after each individual insertion within one),
every record present in the shared table has a non-empty version list equal
to the stable descending sort (by `modified`) of the versions inserted for
its identity, so it is sorted descending with ties in insertion order (the
`filter` clause); and a sequence of `extract_collection` calls is exactly
the sequence of its flattened insertions. -/
theorem C4_versions_sorted_nonempty_stable :
    (∀ (l : List (CollectionObj × String)) (k : String) (r : CollectionRecord),
        tableGet (insertAll [] l) k = some r →
        r.versions ≠ [] ∧ sortedDescByModified r.versions ∧
        r.versions = pySortDescByModified (insertedFor k l) ∧
        ∀ t : Time, r.versions.filter (fun v => v.modified == t)
          = (insertedFor k l).filter (fun v => v.modified == t))
    ∧ ∀ sources : List (Bundle × String),
        runExtracts sources = insertAll [] (flattenSources sources) := by
  constructor
  · intro l k r h
    obtain ⟨h1, h2, h3⟩ := record_invariant_of_tableGet h
    refine ⟨h1, h2, h3, fun t => ?_⟩
    rw [h3, filter_pySort]
  · exact runExtracts_eq_insertAll

/-- Witness for C4 at a concrete insertion sequence with a `modified` tie:
`A` and `B` (both modified 20, inserted in that order) stay in insertion
order ahead of `C` (modified 10). -/
theorem C4_versions_sorted_nonempty_stable_witness :
    (pySortDescByModified
        [mkVersion { id := "X", created := 1, modified := 20, x_mitre_version := "1.0",
                     name := "A", description := "dA" } "u1",
         mkVersion { id := "X", created := 2, modified := 20, x_mitre_version := "2.0",
                     name := "B", description := "dB" } "u2",
         mkVersion { id := "X", created := 3, modified := 10, x_mitre_version := "0.9",
                     name := "C", description := "dC" } "u3"] ≠ [])
    ∧ sortedDescByModified (pySortDescByModified
        [mkVersion { id := "X", created := 1, modified := 20, x_mitre_version := "1.0",
                     name := "A", description := "dA" } "u1",
         mkVersion { id := "X", created := 2, modified := 20, x_mitre_version := "2.0",
                     name := "B", description := "dB" } "u2",
         mkVersion { id := "X", created := 3, modified := 10, x_mitre_version := "0.9",
                     name := "C", description := "dC" } "u3"]) := by
  have h := C4_versions_sorted_nonempty_stable.1
    [({ id := "X", created := 1, modified := 20, x_mitre_version := "1.0",
        name := "A", description := "dA" }, "u1"),
     ({ id := "X", created := 2, modified := 20, x_mitre_version := "2.0",
        name := "B", description := "dB" }, "u2"),
     ({ id := "X", created := 3, modified := 10, x_mitre_version := "0.9",
        name := "C", description := "dC" }, "u3")]
    "X"
    { id := "X", created := 1,
      versions := [{ version := "1.0", url := "u1", modified := 20,
                     name := "A", description := "dA" },
                   { version := "2.0", url := "u2", modified := 20,
                     name := "B", description := "dB" },
                   { version := "0.9", url := "u3", modified := 10,
                     name := "C", description := "dC" }] }
    rfl
  obtain ⟨h1, h2, h3, _⟩ := h
  exact ⟨h3 ▸ h1, h3 ▸ h2⟩

/-- C5: for every identity `k`, after any sequence of `extract_collection`
calls the record's `created` equals the `created` of the first collection
object seen with identity `k` (the first in the flattened insertion order),
independent of the `created` values of all later objects; if no object with
that identity was seen, no record exists. -/
theorem C5_created_fixed_at_first_sight
    (sources : List (Bundle × String)) (k : String) :
    (tableGet (runExtracts sources) k).map (fun r => r.created)
      = ((flattenSources sources).find? (fun p => p.1.id == k)).map
          (fun p => p.1.created) := by
  rw [runExtracts_eq_insertAll, tableGet_insertAll, Option.map_map]
  rfl

/-- C6: for every non-empty table whose records all carry at least one
version (the invariant of tables built by extraction), assembly succeeds and
the index `created` is the minimum of all records' `created` values and the
index `modified` is the maximum of all versions' `modified` values — in
particular `Index.created ≤` every record's `created` and
`Index.modified ≥` every version's `modified`. -/
theorem C6_index_created_min_modified_max
    (uuid name description : String) (tbl : Table)
    (hne : tbl ≠ []) (hv : ∀ p ∈ tbl, p.2.versions ≠ []) :
    ∃ idx, assembleIndex uuid name description tbl = .ok idx
      ∧ idx.created ∈ tbl.map (fun p => p.2.created)
      ∧ (∀ t ∈ tbl.map (fun p => p.2.created), idx.created ≤ t)
      ∧ idx.modified ∈ tbl.flatMap (fun p => p.2.versions.map (fun v => v.modified))
      ∧ ∀ t ∈ tbl.flatMap (fun p => p.2.versions.map (fun v => v.modified)),
          t ≤ idx.modified := by
  have hv' : ∀ r ∈ tbl.map (fun p => p.2), r.versions ≠ [] := by
    intro r hr
    obtain ⟨p, hp, rfl⟩ := List.mem_map.mp hr
    exact hv p hp
  obtain ⟨cols, hloop⟩ := assembleLoop_ok (tbl.map (fun p => p.2)) none none hv'
  have hcreateds : (tbl.map (fun p => p.2)).map (fun r => r.created)
      = tbl.map (fun p => p.2.created) := by
    rw [List.map_map]; rfl
  have hmodifieds : (tbl.map (fun p => p.2)).flatMap (fun r => r.versions.map (fun v => v.modified))
      = tbl.flatMap (fun p => p.2.versions.map (fun v => v.modified)) := by
    rw [List.flatMap_map]
  have hcne : tbl.map (fun p => p.2.created) ≠ [] := by
    intro h
    exact hne (List.map_eq_nil_iff.mp h)
  have hmne : tbl.flatMap (fun p => p.2.versions.map (fun v => v.modified)) ≠ [] := by
    cases tbl with
    | nil => exact absurd rfl hne
    | cons p rest =>
      intro h
      rw [List.flatMap_cons, List.append_eq_nil] at h
      have := List.map_eq_nil_iff.mp h.1
      exact hv p (List.mem_cons_self p rest) this
  obtain ⟨c, hc1, hc2, hc3⟩ := foldl_accMin_none hcne
  obtain ⟨m, hm1, hm2, hm3⟩ := foldl_accMax_none hmne
  rw [hcreateds, hmodifieds, hc1, hm1] at hloop
  refine ⟨{ id := uuid, name := name, description := description,
            created := c, modified := m, collections := cols }, ?_, hc2, hc3, hm2, hm3⟩
  rw [assembleIndex, hloop]

/-- Witness for C6 at a concrete two-record table. -/
theorem C6_index_created_min_modified_max_witness :
    ∃ idx, assembleIndex "u6" "N6" "D6" exTable6 = .ok idx
      ∧ idx.created ∈ exTable6.map (fun p => p.2.created)
      ∧ (∀ t ∈ exTable6.map (fun p => p.2.created), idx.created ≤ t)
      ∧ idx.modified ∈ exTable6.flatMap (fun p => p.2.versions.map (fun v => v.modified))
      ∧ ∀ t ∈ exTable6.flatMap (fun p => p.2.versions.map (fun v => v.modified)),
          t ≤ idx.modified :=
  C6_index_created_min_modified_max "u6" "N6" "D6" exTable6
    (by simp [exTable6]) (by simp [exTable6])

/-- C3: for every `CollectionRecord` in the assembled index, the record's
`name` and `description` equal those of the last element of its
descending-sorted version list — the retained version whose `modified` is
minimal among the record's versions — not the most recently modified one. -/
theorem C3_name_description_from_last_version
    (uuid : String) (listdir : String → List String) (fs : String → Bundle)
    (name description root_url : String)
    (files folders : Option (List String)) (bundles : Option (List Bundle))
    (cb : List Bundle) (idx : Index)
    (hclean : cleanStep bundles = .ok cb)
    (hok : (generate_index uuid listdir fs name description root_url files folders bundles).2
      = .ok idx) :
    List.Forall₂ (fun (p : String × CollectionRecord) (oc : OutCollection) =>
        ∃ last, p.2.versions.getLast? = some last ∧ oc.name = last.name ∧
          oc.description = last.description ∧
          ∀ v ∈ p.2.versions, last.modified ≤ v.modified)
      (buildTable fs root_url (resolveFiles listdir files folders) cb)
      idx.collections := by
  rw [generate_index_of_cleanStep uuid listdir fs name description root_url files folders
    hclean] at hok
  have hok' : assembleIndex uuid name description
      (buildTable fs root_url (resolveFiles listdir files folders) cb) = .ok idx := hok
  obtain ⟨cols, c, m, hloop, hidx⟩ := assembleIndex_ok_inv hok'
  have hF : List.Forall₂ (fun (p : String × CollectionRecord) oc => finalizeRecord p.2 = .ok oc)
      (buildTable fs root_url (resolveFiles listdir files folders) cb) cols :=
    List.forall₂_map_left_iff.mp (assembleLoop_forall₂ _ _ _ _ _ _ hloop)
  have htbl : buildTable fs root_url (resolveFiles listdir files folders) cb
      = insertAll [] (flattenSources
          ((if pyTruthy (resolveFiles listdir files folders) then
              ((resolveFiles listdir files folders).getD []).map
                (fun f => (fs f, mkUrl root_url f)) else [])
            ++ cb.map (fun b => (b, "Imported")))) := by
    rw [buildTable_eq_runExtracts, runExtracts_eq_insertAll]
  have hidxcols : idx.collections = cols := by rw [hidx]
  rw [hidxcols]
  refine forall₂_imp_of_mem hF ?_
  intro p hp oc hfin
  obtain ⟨hne, hsort⟩ := record_invariant_of_mem (htbl ▸ hp)
  cases hl : p.2.versions.getLast? with
  | none => exact absurd (List.getLast?_eq_none_iff.mp hl) hne
  | some last =>
    rw [finalizeRecord_ok hl] at hfin
    have hoc : oc = finalizeOut p.2 last := (Except.ok.injEq .. ▸ hfin).symm
    exact ⟨last, rfl, by rw [hoc]; rfl, by rw [hoc]; rfl,
      getLast?_min_of_sortedDesc hsort hl⟩

/-- Witness for C3 at a concrete run whose single record has two versions:
the output name/description are those of the earliest-modified version. -/
theorem C3_name_description_from_last_version_witness :
    List.Forall₂ (fun (p : String × CollectionRecord) (oc : OutCollection) =>
        ∃ last, p.2.versions.getLast? = some last ∧ oc.name = last.name ∧
          oc.description = last.description ∧
          ∀ v ∈ p.2.versions, last.modified ≤ v.modified)
      (buildTable (fun _ => exBundleAB) "http://r"
        (resolveFiles (fun _ => []) (some ["a.json"]) none) [])
      exIndex3.collections :=
  C3_name_description_from_last_version "u3" (fun _ => []) (fun _ => exBundleAB)
    "N3" "D3" "http://r" (some ["a.json"]) none none [] exIndex3 rfl rfl

/-- C9: two runs on the same input (same oracles, arguments and enumeration)
that draw distinct uuids produce indexes that differ in `id` but agree in
`name`, `description`, `created`, `modified` and `collections`. -/
theorem C9_same_input_runs_differ_only_in_id
    (uuid1 uuid2 : String) (listdir : String → List String) (fs : String → Bundle)
    (name description root_url : String)
    (files folders : Option (List String)) (bundles : Option (List Bundle))
    (hne : uuid1 ≠ uuid2) (i1 i2 : Index)
    (h1 : (generate_index uuid1 listdir fs name description root_url files folders bundles).2
      = .ok i1)
    (h2 : (generate_index uuid2 listdir fs name description root_url files folders bundles).2
      = .ok i2) :
    i1.id ≠ i2.id ∧ i1.name = i2.name ∧ i1.description = i2.description
      ∧ i1.created = i2.created ∧ i1.modified = i2.modified
      ∧ i1.collections = i2.collections := by
  cases hclean : cleanStep bundles with
  | error e => simp [generate_index, hclean] at h1
  | ok cb =>
    rw [generate_index_of_cleanStep uuid1 listdir fs name description root_url files folders
      hclean] at h1
    rw [generate_index_of_cleanStep uuid2 listdir fs name description root_url files folders
      hclean] at h2
    have h1' : assembleIndex uuid1 name description
        (buildTable fs root_url (resolveFiles listdir files folders) cb) = .ok i1 := h1
    have h2' : assembleIndex uuid2 name description
        (buildTable fs root_url (resolveFiles listdir files folders) cb) = .ok i2 := h2
    obtain ⟨cols1, c1, m1, hloop1, hidx1⟩ := assembleIndex_ok_inv h1'
    obtain ⟨cols2, c2, m2, hloop2, hidx2⟩ := assembleIndex_ok_inv h2'
    rw [hloop1] at hloop2
    simp only [Except.ok.injEq, Prod.mk.injEq, Option.some.injEq] at hloop2
    obtain ⟨hcols, hc, hm⟩ := hloop2
    rw [hidx1, hidx2, hcols, hc, hm]
    exact ⟨hne, rfl, rfl, rfl, rfl, rfl⟩

/-- Witness for C9: two concrete runs with distinct uuid draws. -/
theorem C9_same_input_runs_differ_only_in_id_witness :
    (exIndex9 "w1").id ≠ (exIndex9 "w2").id
      ∧ (exIndex9 "w1").name = (exIndex9 "w2").name
      ∧ (exIndex9 "w1").description = (exIndex9 "w2").description
      ∧ (exIndex9 "w1").created = (exIndex9 "w2").created
      ∧ (exIndex9 "w1").modified = (exIndex9 "w2").modified
      ∧ (exIndex9 "w1").collections = (exIndex9 "w2").collections :=
  C9_same_input_runs_differ_only_in_id "w1" "w2" (fun _ => []) (fun _ => exBundleAB)
    "N9" "D9" "http://r" (some ["b.json"]) none none (by decide)
    (exIndex9 "w1") (exIndex9 "w2") rfl rfl
